import Mathlib

/-!
# Verification of the transaction-executor repository

Shallow embedding of `main.go` (the block executor, worker pool and the
in-memory account ledger) and of the `transfer` transaction from the test
file.  Go's `uint` is modelled as `Nat` with explicit wrap-around `% 2^64`
where the Go code can overflow, and Go's `int` as `Int` (64-bit range
hypotheses are added where a claim's domain is the Go type).  The Go map
`map[string]uint` is modelled as an association list with overwrite-in-place
assignment; Go's unspecified map iteration order means snapshot claims are
stated up to permutation / membership.
-/

set_option maxHeartbeats 1000000

namespace TxExec

/-- Go errors (`error` values built with `fmt.Errorf`) are modelled by their
message string. -/
abbrev GoError := String

/-- `AccountUpdate` from main.go: a (name, signed balance change) pair. -/
structure AccountUpdate where
  name : String
  balanceChange : Int
deriving DecidableEq

/-- `AccountValue` from main.go: a (name, unsigned balance) pair. -/
structure AccountValue where
  name : String
  balance : Nat
deriving DecidableEq

/-- Equality of Go `(value, error)` results is decidable; used to evaluate
the executor on concrete test inputs. -/
instance {ε α : Type} [DecidableEq ε] [DecidableEq α] : DecidableEq (Except ε α) := fun x y =>
  match x, y with
  | .ok a, .ok b =>
    if h : a = b then .isTrue (congrArg Except.ok h)
    else .isFalse (fun hh => h (Except.ok.inj hh))
  | .error a, .error b =>
    if h : a = b then .isTrue (congrArg Except.error h)
    else .isFalse (fun hh => h (Except.error.inj hh))
  | .ok _, .error _ => .isFalse (fun hh => Except.noConfusion hh)
  | .error _, .ok _ => .isFalse (fun hh => Except.noConfusion hh)

/-- Modulus of Go's `uint` (64-bit platform). -/
def U64 : Nat := 2 ^ 64

/-- Go map read `s.accounts[name]`: the zero value `0` when the key is
absent; with unique keys the first match is the binding. -/
def mapGet (m : List (String × Nat)) (k : String) : Nat :=
  match m with
  | [] => 0
  | p :: rest => if p.1 = k then p.2 else mapGet rest k

/-- Go map assignment `s.accounts[k] = v`: overwrite the existing binding in
place, or append a new one.  Note that assignment always creates the key. -/
def mapSet (m : List (String × Nat)) (k : String) (v : Nat) : List (String × Nat) :=
  match m with
  | [] => [(k, v)]
  | p :: rest => if p.1 = k then (k, v) :: rest else p :: mapSet rest k v

/-- `InMemoryAccountState` from main.go (the `sync.RWMutex` guards the map at
runtime; the functional model is the map itself). -/
structure InMemoryAccountState where
  accounts : List (String × Nat)
deriving DecidableEq

/-- `NewInMemoryAccountState` from main.go: start from the empty map and
assign each initial account in order (later duplicates overwrite). -/
def NewInMemoryAccountState (initialAccounts : List AccountValue) : InMemoryAccountState :=
  ⟨initialAccounts.foldl (fun m acc => mapSet m acc.name acc.balance) []⟩

/-- `GetAccount` from main.go: returns the stored balance, `0` if the account
does not exist. -/
def GetAccount (s : InMemoryAccountState) (name : String) : AccountValue :=
  ⟨name, mapGet s.accounts name⟩

/-- The value stored by one iteration of the `applyUpdates` loop in main.go:
for a non-negative change, Go computes `currentBalance + uint(change)` in
`uint` arithmetic, i.e. modulo `2^64`; for a negative change it computes
`decrease := uint(-change)` (which equals `|change|` for every 64-bit `int`,
including `math.MinInt64`) and clamps at `0` when `decrease > currentBalance`. -/
def newBalance (m : List (String × Nat)) (u : AccountUpdate) : Nat :=
  let currentBalance := mapGet m u.name
  if 0 ≤ u.balanceChange then
    (currentBalance + u.balanceChange.toNat) % U64
  else
    if currentBalance < u.balanceChange.natAbs then 0
    else currentBalance - u.balanceChange.natAbs

/-- One iteration of the `applyUpdates` loop: every branch ends in the map
assignment `s.accounts[update.Name] = ...`. -/
def applyUpdate (m : List (String × Nat)) (u : AccountUpdate) : List (String × Nat) :=
  mapSet m u.name (newBalance m u)

/-- `applyUpdates` / `ApplyUpdates` from main.go: fold the loop body over the
batch (atomic at runtime thanks to the write lock). -/
def ApplyUpdates (s : InMemoryAccountState) (updates : List AccountUpdate) : InMemoryAccountState :=
  ⟨updates.foldl applyUpdate s.accounts⟩

/-- `getSnapshot` / `GetSnapshot` from main.go: one `AccountValue` per map
entry.  Go iterates the map in unspecified order; the model fixes insertion
order, so snapshot properties are stated up to permutation / membership. -/
def getSnapshot (s : InMemoryAccountState) : List AccountValue :=
  s.accounts.map (fun p => ⟨p.1, p.2⟩)

/-- The account names present in a ledger state (the keys of the Go map). -/
def stateNames (s : InMemoryAccountState) : List String :=
  s.accounts.map Prod.fst

-- ### Basic map lemmas

theorem mapGet_mapSet_self (m : List (String × Nat)) (k : String) (v : Nat) :
    mapGet (mapSet m k v) k = v := by
  induction m with
  | nil => simp [mapGet, mapSet]
  | cons p rest ih =>
    by_cases h : p.1 = k
    · simp [mapGet, mapSet, h]
    · simp [mapGet, mapSet, h, ih]

theorem mapGet_mapSet_ne (m : List (String × Nat)) (k k' : String) (v : Nat)
    (h : k' ≠ k) : mapGet (mapSet m k v) k' = mapGet m k' := by
  have hk : ¬ k = k' := fun hh => h hh.symm
  induction m with
  | nil => simp [mapGet, mapSet, hk]
  | cons p rest ih =>
    by_cases hp : p.1 = k
    · have hp' : ¬ p.1 = k' := by rw [hp]; exact hk
      simp [mapGet, mapSet, hp, hk, hp']
    · by_cases hq : p.1 = k'
      · simp [mapGet, mapSet, hp, hq, h]
      · simp [mapGet, mapSet, hp, hq, ih]

theorem mem_names_mapSet (m : List (String × Nat)) (k n : String) (v : Nat) :
    n ∈ (mapSet m k v).map Prod.fst ↔ n = k ∨ n ∈ m.map Prod.fst := by
  induction m with
  | nil => simp [mapSet, eq_comm]
  | cons p rest ih =>
    by_cases hp : p.1 = k
    · subst hp
      simp [mapSet, eq_comm]
    · simp only [mapSet, if_neg hp, List.map_cons, List.mem_cons, ih]
      tauto

theorem mapGet_eq_zero_of_not_mem (m : List (String × Nat)) (n : String)
    (h : n ∉ m.map Prod.fst) : mapGet m n = 0 := by
  induction m with
  | nil => rfl
  | cons p rest ih =>
    simp only [List.map_cons, List.mem_cons] at h
    push_neg at h
    have h1 : ¬ p.1 = n := fun hh => h.1 hh.symm
    simp [mapGet, h1, ih h.2]

-- ### The executor: worker pool, block loop, chain driver

/-- The `Transaction` interface from main.go: one capability,
`Updates(AccountState) ([]AccountUpdate, error)`, modelled as a pure function
of the ledger state (the spec gives transactions a read-only view). -/
abbrev Transaction := InMemoryAccountState → Except GoError (List AccountUpdate)

/-- `Block` from main.go. -/
structure Block where
  transactions : List Transaction

/-- `txJob` from main.go: the transaction, its index and the state it is
dispatched with. -/
structure txJob where
  transaction : Transaction
  index : Nat
  state : InMemoryAccountState

/-- `txResult` from main.go. -/
structure txResult where
  updates : List AccountUpdate
  index : Nat
  err : Option GoError

/-- The body of `worker` in main.go for one job: it calls
`job.transaction.Updates(job.state)` and sends back the result.  Every worker
runs this same code, so the result depends only on the job, never on
`workerId` — the fact the determinism claims rest on. -/
def workerCompute (workerId : Nat) (job : txJob) : txResult :=
  match job.transaction job.state with
  | .ok updates => ⟨updates, job.index, none⟩
  | .error e => ⟨[], job.index, some e⟩

/-- One trace entry per transaction processed by the block loop: its index,
the ledger state its job was dispatched with (`job.state`), and the committed
batch (`some updates` if the executor called `ApplyUpdates`, `none` if the
result carried an error and was discarded). -/
structure TraceEntry where
  idx : Nat
  dispatchedState : InMemoryAccountState
  committed : Option (List AccountUpdate)
deriving DecidableEq

/-- The main loop of `ExecuteBlock` (lines 65-80 of main.go): the `jobs` and
`results` channels each hold at most one element and the loop sends one job
and then blocks on its result, so exactly one job is in flight at a time;
some free worker `sched i % w` picks job `i` and runs `workerCompute` on it.
The loop applies the updates of a successful result and discards a failed
one, then moves to the next transaction.  Returns the final state and the
trace of processed transactions. -/
def execLoop (w : Nat) (sched : Nat → Nat) :
    List Transaction → Nat → InMemoryAccountState →
    InMemoryAccountState × List TraceEntry
  | [], _, st => (st, [])
  | tx :: rest, i, st =>
    let result := workerCompute (sched i % w) ⟨tx, i, st⟩
    match result.err with
    | none =>
      let r := execLoop w sched rest (i + 1) (ApplyUpdates st result.updates)
      (r.1, ⟨i, st, some result.updates⟩ :: r.2)
    | some _ =>
      let r := execLoop w sched rest (i + 1) st
      (r.1, ⟨i, st, none⟩ :: r.2)

/-- What `ExecuteBlock` produces: the final ledger state, the processing
trace, the returned snapshot and the returned error. -/
structure BlockResult where
  finalState : InMemoryAccountState
  trace : List TraceEntry
  snapshot : List AccountValue
  err : Option GoError

/-- `ExecuteBlock` from main.go, for a worker count `w` and a scheduler
`sched` choosing which worker picks each job.  Both return statements in the
Go function return a `nil` error, and the type assertion on
`InMemoryAccountState` succeeds, so the result is the snapshot with no
error.  For `w = 0` (Go `numWorkers <= 0`) no worker runs; the Go loop then
deadlocks on its second send for blocks of two or more transactions, and for
shorter blocks receives the zero-valued `txResult` from the closed channel
and applies nothing — the state is returned unchanged.  No claim concerns
`w = 0`; every theorem below assumes `1 ≤ w`. -/
def ExecuteBlockGo (block : Block) (st : InMemoryAccountState) (w : Nat)
    (sched : Nat → Nat) : BlockResult :=
  if 1 ≤ w then
    let r := execLoop w sched block.transactions 0 st
    ⟨r.1, r.2, getSnapshot r.1, none⟩
  else
    ⟨st, [], getSnapshot st, none⟩

/-- The loop of `Start` from main.go: run each block in order on the shared
state, aborting with the block's error if `ExecuteBlock` fails. -/
def runBlocks (w : Nat) (sched : Nat → Nat) :
    List Block → InMemoryAccountState → Except GoError InMemoryAccountState
  | [], st => .ok st
  | b :: rest, st =>
    let r := ExecuteBlockGo b st w sched
    match r.err with
    | some e => .error e
    | none => runBlocks w sched rest r.finalState

/-- `Start` from main.go: build the initial state, run all blocks, return
the final snapshot (or the first machinery error). -/
def StartGo (blocks : List Block) (initialState : List AccountValue) (w : Nat)
    (sched : Nat → Nat) : Except GoError (List AccountValue) :=
  match runBlocks w sched blocks (NewInMemoryAccountState initialState) with
  | .ok st => .ok (getSnapshot st)
  | .error e => .error e

/-- Modelled from the spec (§4.3, strategy 1 — the strict pipeline reference
behavior): dispatch transaction `i`, wait for its result, commit its deltas
if it succeeded, discard them if it failed, then move to transaction
`i + 1`.  This is the reference the refinement claim compares
`ExecuteBlock` against. -/
def seqRef : List Transaction → InMemoryAccountState → InMemoryAccountState
  | [], st => st
  | tx :: rest, st =>
    match tx st with
    | .ok deltas => seqRef rest (ApplyUpdates st deltas)
    | .error _ => seqRef rest st

-- ### The transfer transaction from the test file

/-- Go `uint(v)` conversion of a 64-bit `int`: two's-complement
reinterpretation, i.e. `v mod 2^64`. -/
def goUint (v : Int) : Nat := (v % (U64 : Int)).toNat

/-- The `transfer` test transaction: move `value` from `src` to `dst`. -/
structure transfer where
  src : String
  dst : String
  value : Int

/-- `transfer.Updates` from the test file: fail with "insufficient balance"
when the source balance is below `uint(value)`, otherwise produce the debit
and the credit deltas. -/
def transfer.Updates (t : transfer) (state : InMemoryAccountState) :
    Except GoError (List AccountUpdate) :=
  let fromAcc := GetAccount state t.src
  if fromAcc.balance < goUint t.value then
    .error ("insufficient balance: account " ++ t.src ++ " has " ++
      toString fromAcc.balance ++ ", needs " ++ toString t.value)
  else
    .ok [⟨t.src, -t.value⟩, ⟨t.dst, t.value⟩]

/-- The initial state of the spec's order-sensitivity example (§8). -/
def exampleInit : List AccountValue := [⟨"A", 20⟩, ⟨"B", 30⟩, ⟨"C", 40⟩]

/-- The block of the spec's order-sensitivity example (§8). -/
def exampleBlock : Block :=
  ⟨[transfer.Updates ⟨"A", "B", 5⟩, transfer.Updates ⟨"B", "C", 10⟩,
    transfer.Updates ⟨"B", "C", 30⟩]⟩

-- ### Executor lemmas

theorem seqRef_append (a b : List Transaction) (st : InMemoryAccountState) :
    seqRef (a ++ b) st = seqRef b (seqRef a st) := by
  induction a generalizing st with
  | nil => rfl
  | cons tx rest ih =>
    cases h : tx st with
    | ok u => simp [seqRef, h, ih]
    | error e => simp [seqRef, h, ih]

theorem execLoop_fst (w : Nat) (sched : Nat → Nat) (txs : List Transaction)
    (i : Nat) (st : InMemoryAccountState) :
    (execLoop w sched txs i st).1 = seqRef txs st := by
  induction txs generalizing i st with
  | nil => rfl
  | cons tx rest ih =>
    cases h : tx st with
    | ok u => simp [execLoop, workerCompute, seqRef, h, ih]
    | error e => simp [execLoop, workerCompute, seqRef, h, ih]

theorem execLoop_trace_mem (w : Nat) (sched : Nat → Nat) (txs : List Transaction) :
    ∀ (i : Nat) (st : InMemoryAccountState) (e : TraceEntry),
      e ∈ (execLoop w sched txs i st).2 →
      i ≤ e.idx ∧ e.idx < i + txs.length ∧
        e.dispatchedState = seqRef (txs.take (e.idx - i)) st := by
  induction txs with
  | nil =>
    intro i st e hmem
    simp [execLoop] at hmem
  | cons tx rest ih =>
    intro i st e hmem
    cases h : tx st with
    | ok u =>
      simp only [execLoop, workerCompute, h, List.mem_cons] at hmem
      rcases hmem with hmem | hmem
      · subst hmem
        simp [seqRef]
      · obtain ⟨h1, h2, h3⟩ := ih (i + 1) (ApplyUpdates st u) e hmem
        refine ⟨by omega, by simp only [List.length_cons]; omega, ?_⟩
        have hidx : e.idx - i = (e.idx - (i + 1)) + 1 := by omega
        rw [hidx, List.take_succ_cons, seqRef, h, h3]
    | error msg =>
      simp only [execLoop, workerCompute, h, List.mem_cons] at hmem
      rcases hmem with hmem | hmem
      · subst hmem
        simp [seqRef]
      · obtain ⟨h1, h2, h3⟩ := ih (i + 1) st e hmem
        refine ⟨by omega, by simp only [List.length_cons]; omega, ?_⟩
        have hidx : e.idx - i = (e.idx - (i + 1)) + 1 := by omega
        rw [hidx, List.take_succ_cons, seqRef, h, h3]

theorem execLoop_idx_pairwise (w : Nat) (sched : Nat → Nat)
    (txs : List Transaction) (i : Nat) (st : InMemoryAccountState) :
    List.Pairwise (· < ·) ((execLoop w sched txs i st).2.map TraceEntry.idx) := by
  induction txs generalizing i st with
  | nil => simp [execLoop]
  | cons tx rest ih =>
    cases h : tx st with
    | ok u =>
      simp only [execLoop, workerCompute, h, List.map_cons]
      refine List.Pairwise.cons ?_ (ih (i + 1) (ApplyUpdates st u))
      intro x hx
      simp only [List.mem_map] at hx
      obtain ⟨e, he, rfl⟩ := hx
      have := (execLoop_trace_mem w sched rest (i + 1) (ApplyUpdates st u) e he).1
      omega

    | error msg =>
      simp only [execLoop, workerCompute, h, List.map_cons]
      refine List.Pairwise.cons ?_ (ih (i + 1) st)
      intro x hx
      simp only [List.mem_map] at hx
      obtain ⟨e, he, rfl⟩ := hx
      have := (execLoop_trace_mem w sched rest (i + 1) st e he).1
      omega

theorem execLoop_sched_irrel (w1 w2 : Nat) (s1 s2 : Nat → Nat)
    (txs : List Transaction) (i : Nat) (st : InMemoryAccountState) :
    execLoop w1 s1 txs i st = execLoop w2 s2 txs i st := by
  induction txs generalizing i st with
  | nil => rfl
  | cons tx rest ih =>
    cases h : tx st with
    | ok u => simp [execLoop, workerCompute, h, ih]
    | error e => simp [execLoop, workerCompute, h, ih]

theorem ExecuteBlockGo_sched_irrel (b : Block) (st : InMemoryAccountState)
    (w1 w2 : Nat) (s1 s2 : Nat → Nat) (h1 : 1 ≤ w1) (h2 : 1 ≤ w2) :
    ExecuteBlockGo b st w1 s1 = ExecuteBlockGo b st w2 s2 := by
  simp [ExecuteBlockGo, if_pos h1, if_pos h2,
    execLoop_sched_irrel w1 w2 s1 s2 b.transactions 0 st]

theorem runBlocks_sched_irrel (w1 w2 : Nat) (s1 s2 : Nat → Nat)
    (blocks : List Block) (st : InMemoryAccountState) (h1 : 1 ≤ w1)
    (h2 : 1 ≤ w2) :
    runBlocks w1 s1 blocks st = runBlocks w2 s2 blocks st := by
  induction blocks generalizing st with
  | nil => rfl
  | cons b rest ih =>
    simp only [runBlocks, ExecuteBlockGo_sched_irrel b st w1 w2 s1 s2 h1 h2]
    cases (ExecuteBlockGo b st w2 s2).err with
    | none => exact ih _
    | some e => rfl

theorem ExecuteBlockGo_err (b : Block) (st : InMemoryAccountState) (w : Nat)
    (sched : Nat → Nat) : (ExecuteBlockGo b st w sched).err = none := by
  unfold ExecuteBlockGo
  split <;> rfl

theorem runBlocks_ok (w : Nat) (sched : Nat → Nat) (blocks : List Block)
    (st : InMemoryAccountState) :
    ∃ st2, runBlocks w sched blocks st = .ok st2 := by
  induction blocks generalizing st with
  | nil => exact ⟨st, rfl⟩
  | cons b rest ih =>
    simp only [runBlocks, ExecuteBlockGo_err]
    exact ih _

-- ### Claim theorems for the executor

/-- Claim C1: for every sequence of blocks, every initial account state and
any worker counts `w1, w2 ≥ 1` (together with arbitrary choices `s1, s2` of
which worker picks each job), running `Start` yields the same final ledger
state — literally the same state value, hence the same set of account names
with the same balances — and the same returned snapshot. -/
theorem C1_worker_count_determinism (blocks : List Block)
    (init : List AccountValue) (w1 w2 : Nat) (s1 s2 : Nat → Nat)
    (h1 : 1 ≤ w1) (h2 : 1 ≤ w2) :
    runBlocks w1 s1 blocks (NewInMemoryAccountState init) =
      runBlocks w2 s2 blocks (NewInMemoryAccountState init) ∧
    StartGo blocks init w1 s1 = StartGo blocks init w2 s2 := by
  refine ⟨runBlocks_sched_irrel w1 w2 s1 s2 blocks _ h1 h2, ?_⟩
  simp only [StartGo, runBlocks_sched_irrel w1 w2 s1 s2 blocks _ h1 h2]

theorem C1_worker_count_determinism_witness :
    runBlocks 1 (fun _ => 0) [exampleBlock] (NewInMemoryAccountState exampleInit) =
      runBlocks 4 (fun i => i) [exampleBlock] (NewInMemoryAccountState exampleInit) ∧
    StartGo [exampleBlock] exampleInit 1 (fun _ => 0) =
      StartGo [exampleBlock] exampleInit 4 (fun i => i) :=
  C1_worker_count_determinism [exampleBlock] exampleInit 1 4 _ _
    (by decide) (by decide)

/-- Claim C2: for every block, starting state, worker count `w ≥ 1` and
scheduler, `ExecuteBlock` refines the strict sequential reference: the final
state equals `seqRef`, each transaction's `Updates` call receives exactly the
state holding the committed effects of transactions `0..i-1` and of no later
transaction (the state `seqRef` reaches after the first `i` transactions),
and the ledger writes (the committed trace entries) occur in strictly
ascending transaction index order. -/
theorem C2_refines_sequential (block : Block) (st : InMemoryAccountState)
    (w : Nat) (sched : Nat → Nat) (hw : 1 ≤ w) :
    (ExecuteBlockGo block st w sched).finalState = seqRef block.transactions st ∧
    (∀ e ∈ (ExecuteBlockGo block st w sched).trace,
      e.dispatchedState = seqRef (block.transactions.take e.idx) st) ∧
    List.Pairwise (· < ·)
      (((ExecuteBlockGo block st w sched).trace.filter
        (fun e => e.committed.isSome)).map TraceEntry.idx) := by
  simp only [ExecuteBlockGo, if_pos hw]
  refine ⟨execLoop_fst w sched block.transactions 0 st, ?_, ?_⟩
  · intro e he
    have h := (execLoop_trace_mem w sched block.transactions 0 st e he).2.2
    simpa using h
  · exact List.Pairwise.sublist
      (List.Sublist.map TraceEntry.idx (List.filter_sublist _))
      (execLoop_idx_pairwise w sched block.transactions 0 st)

theorem C2_refines_sequential_witness :
    (ExecuteBlockGo exampleBlock (NewInMemoryAccountState exampleInit) 2
        (fun _ => 0)).finalState =
      seqRef exampleBlock.transactions (NewInMemoryAccountState exampleInit) ∧
    (∀ e ∈ (ExecuteBlockGo exampleBlock (NewInMemoryAccountState exampleInit) 2
        (fun _ => 0)).trace,
      e.dispatchedState =
        seqRef (exampleBlock.transactions.take e.idx)
          (NewInMemoryAccountState exampleInit)) ∧
    List.Pairwise (· < ·)
      (((ExecuteBlockGo exampleBlock (NewInMemoryAccountState exampleInit) 2
        (fun _ => 0)).trace.filter
          (fun e => e.committed.isSome)).map TraceEntry.idx) :=
  C2_refines_sequential exampleBlock (NewInMemoryAccountState exampleInit) 2
    (fun _ => 0) (by decide)

/-- Claim C3: if a transaction's `Updates` call returns an error, none of its
deltas reach the ledger — execution continues with the next transaction from
exactly the state the failing transaction saw — and the failure does not
surface as `ExecuteBlock`'s error (so `Start` does not fail either). -/
theorem C3_failed_tx_discarded (w : Nat) (sched : Nat → Nat)
    (st : InMemoryAccountState) (pre post : List Transaction)
    (tx : Transaction) (e : GoError) (hw : 1 ≤ w)
    (hfail : tx (seqRef pre st) = .error e) :
    (ExecuteBlockGo ⟨pre ++ tx :: post⟩ st w sched).finalState =
      seqRef post (seqRef pre st) ∧
    (ExecuteBlockGo ⟨pre ++ tx :: post⟩ st w sched).err = none := by
  refine ⟨?_, ExecuteBlockGo_err _ _ _ _⟩
  simp only [ExecuteBlockGo, if_pos hw]
  show (execLoop w sched (pre ++ tx :: post) 0 st).1 = _
  rw [execLoop_fst, seqRef_append]
  show seqRef (tx :: post) (seqRef pre st) = _
  rw [seqRef, hfail]

theorem C3_failed_tx_discarded_witness :
    transfer.Updates ⟨"A", "B", 5⟩
        (seqRef [] (NewInMemoryAccountState [])) =
      .error "insufficient balance: account A has 0, needs 5" ∧
    (ExecuteBlockGo ⟨[] ++ transfer.Updates ⟨"A", "B", 5⟩ :: []⟩
        (NewInMemoryAccountState []) 1 (fun _ => 0)).finalState =
      seqRef [] (seqRef [] (NewInMemoryAccountState [])) ∧
    (ExecuteBlockGo ⟨[] ++ transfer.Updates ⟨"A", "B", 5⟩ :: []⟩
        (NewInMemoryAccountState []) 1 (fun _ => 0)).err = none :=
  ⟨by decide, C3_failed_tx_discarded 1 (fun _ => 0) (NewInMemoryAccountState [])
    [] [] (transfer.Updates ⟨"A", "B", 5⟩)
    "insufficient balance: account A has 0, needs 5" (by decide) (by decide)⟩

/-- Claim C10: `ExecuteBlock` returns a `nil` error on every input, so with
`numWorkers ≥ 1` `Start` always returns a final snapshot and never an
error — the machinery-failure path at the public interface is unreachable. -/
theorem C10_start_never_errs (blocks : List Block) (init : List AccountValue)
    (w : Nat) (sched : Nat → Nat) (hw : 1 ≤ w) :
    (∀ (b : Block) (st : InMemoryAccountState),
      (ExecuteBlockGo b st w sched).err = none) ∧
    ∃ snap, StartGo blocks init w sched = .ok snap := by
  refine ⟨fun b st => ExecuteBlockGo_err b st w sched, ?_⟩
  obtain ⟨st2, h⟩ := runBlocks_ok w sched blocks (NewInMemoryAccountState init)
  exact ⟨getSnapshot st2, by simp [StartGo, h]⟩

theorem C10_start_never_errs_witness :
    (∀ (b : Block) (st : InMemoryAccountState),
      (ExecuteBlockGo b st 4 (fun i => i)).err = none) ∧
    ∃ snap, StartGo [exampleBlock] exampleInit 4 (fun i => i) = .ok snap :=
  C10_start_never_errs [exampleBlock] exampleInit 4 (fun i => i) (by decide)

-- ### Ledger-level lemmas and claims

/-- A run at the `AccountState` interface level: build the initial state,
then apply a sequence of update batches through `ApplyUpdates`.  Every ledger
state the program can produce arises this way. -/
def runBatches (init : List AccountValue) (batches : List (List AccountUpdate)) :
    InMemoryAccountState :=
  batches.foldl ApplyUpdates (NewInMemoryAccountState init)

theorem mem_names_foldl_mapSet (init : List AccountValue) :
    ∀ (m : List (String × Nat)) (n : String),
      n ∈ (init.foldl (fun m acc => mapSet m acc.name acc.balance) m).map Prod.fst ↔
        n ∈ init.map AccountValue.name ∨ n ∈ m.map Prod.fst := by
  induction init with
  | nil => simp
  | cons acc rest ih =>
    intro m n
    simp only [List.foldl_cons, ih, mem_names_mapSet, List.map_cons, List.mem_cons]
    tauto

theorem mem_names_foldl_applyUpdate (b : List AccountUpdate) :
    ∀ (m : List (String × Nat)) (n : String),
      n ∈ (b.foldl applyUpdate m).map Prod.fst ↔
        (∃ u ∈ b, u.name = n) ∨ n ∈ m.map Prod.fst := by
  induction b with
  | nil => simp
  | cons u rest ih =>
    intro m n
    simp only [List.foldl_cons, ih, applyUpdate, mem_names_mapSet, List.mem_cons]
    constructor
    · rintro (⟨v, hv, rfl⟩ | h | h)
      · exact Or.inl ⟨v, Or.inr hv, rfl⟩
      · exact Or.inl ⟨u, Or.inl rfl, h.symm⟩
      · exact Or.inr h
    · rintro (⟨v, hv | hv, rfl⟩ | h)
      · subst hv
        exact Or.inr (Or.inl rfl)
      · exact Or.inl ⟨v, hv, rfl⟩
      · exact Or.inr (Or.inr h)

theorem mem_names_runBatches (batches : List (List AccountUpdate)) :
    ∀ (st : InMemoryAccountState) (n : String),
      n ∈ stateNames (batches.foldl ApplyUpdates st) ↔
        (∃ b ∈ batches, ∃ u ∈ b, u.name = n) ∨ n ∈ stateNames st := by
  induction batches with
  | nil => simp
  | cons b rest ih =>
    intro st n
    simp only [List.foldl_cons, ih, List.mem_cons]
    have hb : n ∈ stateNames (ApplyUpdates st b) ↔
        (∃ u ∈ b, u.name = n) ∨ n ∈ stateNames st :=
      mem_names_foldl_applyUpdate b st.accounts n
    rw [hb]
    constructor
    · rintro (⟨bb, hbb, hu⟩ | h | h)
      · exact Or.inl ⟨bb, Or.inr hbb, hu⟩
      · exact Or.inl ⟨b, Or.inl rfl, h⟩
      · exact Or.inr h
    · rintro (⟨bb, hbb | hbb, hu⟩ | h)
      · subst hbb
        exact Or.inr (Or.inl hu)
      · exact Or.inl ⟨bb, hbb, hu⟩
      · exact Or.inr (Or.inr h)

theorem mem_stateNames_runBatches (init : List AccountValue)
    (batches : List (List AccountUpdate)) (n : String) :
    n ∈ stateNames (runBatches init batches) ↔
      n ∈ init.map AccountValue.name ∨ ∃ b ∈ batches, ∃ u ∈ b, u.name = n := by
  rw [runBatches, mem_names_runBatches]
  have hinit : n ∈ stateNames (NewInMemoryAccountState init) ↔
      n ∈ init.map AccountValue.name := by
    have := mem_names_foldl_mapSet init [] n
    simpa [stateNames, NewInMemoryAccountState] using this
  rw [hinit]
  exact or_comm

theorem getSnapshot_names (st : InMemoryAccountState) :
    (getSnapshot st).map AccountValue.name = stateNames st := by
  unfold getSnapshot stateNames
  rw [List.map_map]
  rfl

-- ### Claim theorems for the ledger

/-- Claim C4: the spec's order-sensitivity example.  Running the single block
`[A to B: 5, B to C: 10, B to C: 30]` from `{A: 20, B: 30, C: 40}` with four
workers: the executor's trace shows the third transaction dispatched with
`B = 25`, failing (committed = none, i.e. discarded) while the first two
commit, and `Start` returns exactly the accounts `{A: 15, B: 25, C: 50}`. -/
theorem C4_order_sensitivity_example :
    ((ExecuteBlockGo exampleBlock (NewInMemoryAccountState exampleInit) 4
        (fun i => i)).trace.map
      (fun e => ((GetAccount e.dispatchedState "B").balance,
        e.committed.isSome))) = [(30, true), (35, true), (25, false)] ∧
    ∃ snap, StartGo [exampleBlock] exampleInit 4 (fun i => i) = .ok snap ∧
      List.Perm snap [⟨"A", 15⟩, ⟨"B", 25⟩, ⟨"C", 50⟩] :=
  ⟨by decide, [⟨"A", 15⟩, ⟨"B", 25⟩, ⟨"C", 50⟩], by decide, List.Perm.refl _⟩

/-- Claim C5: for every ledger state and every negative delta (in the 64-bit
`int` range of Go) whose magnitude exceeds the account's current balance,
`ApplyUpdates` clamps the resulting balance to exactly `0` — the function is
total, so there is no failure, and balances are `Nat`, so no negative or
wrapped value. -/
theorem C5_underflow_clamp (st : InMemoryAccountState) (u : AccountUpdate)
    (hneg : u.balanceChange < 0) (h64 : -(2 ^ 63) ≤ u.balanceChange)
    (hmag : (GetAccount st u.name).balance < u.balanceChange.natAbs) :
    GetAccount (ApplyUpdates st [u]) u.name = ⟨u.name, 0⟩ := by
  simp only [GetAccount] at hmag
  have hnb : newBalance st.accounts u = 0 := by
    simp only [newBalance]
    rw [if_neg (not_le.mpr hneg), if_pos hmag]
  simp only [GetAccount, ApplyUpdates, List.foldl_cons, List.foldl_nil,
    applyUpdate, hnb, mapGet_mapSet_self]

theorem C5_underflow_clamp_witness :
    ((-50 : Int) < 0) ∧ (-(2 ^ 63) : Int) ≤ -50 ∧
    (GetAccount (NewInMemoryAccountState [⟨"X", 10⟩]) "X").balance <
      (Int.natAbs (-50)) ∧
    GetAccount (ApplyUpdates (NewInMemoryAccountState [⟨"X", 10⟩])
      [⟨"X", -50⟩]) "X" = ⟨"X", 0⟩ :=
  ⟨by decide, by decide, by decide,
    C5_underflow_clamp (NewInMemoryAccountState [⟨"X", 10⟩]) ⟨"X", -50⟩
      (by decide) (by decide) (by decide)⟩

/-- Claim C6: an account name absent from the initial state and not named by
any applied delta reads back as a synthetic account with balance `0` —
`GetAccount` is total, so there is no failure. -/
theorem C6_unseen_account_zero (init : List AccountValue)
    (batches : List (List AccountUpdate)) (n : String)
    (h1 : n ∉ init.map AccountValue.name)
    (h2 : ∀ b ∈ batches, ∀ u ∈ b, u.name ≠ n) :
    GetAccount (runBatches init batches) n = ⟨n, 0⟩ := by
  have hn : n ∉ stateNames (runBatches init batches) := by
    rw [mem_stateNames_runBatches]
    rintro (h | ⟨b, hb, u, hu, hname⟩)
    · exact h1 h
    · exact h2 b hb u hu hname
  simp only [GetAccount]
  rw [mapGet_eq_zero_of_not_mem _ _ hn]

theorem C6_unseen_account_zero_witness :
    ("Z" ∉ exampleInit.map AccountValue.name) ∧
    (∀ b ∈ [[(⟨"A", 5⟩ : AccountUpdate)]], ∀ u ∈ b, u.name ≠ "Z") ∧
    GetAccount (runBatches exampleInit [[⟨"A", 5⟩]]) "Z" = ⟨"Z", 0⟩ :=
  ⟨by decide, by decide,
    C6_unseen_account_zero exampleInit [[⟨"A", 5⟩]] "Z" (by decide) (by decide)⟩

/-- Claim C7 counterexample: the account `X` is absent from the empty
initial state `[]` and receives only the negative delta `-5` — never a
positive credit — yet it appears in the snapshot (with balance `0`), because
the `applyUpdates` loop ends every branch in a map assignment that creates
the key.  This refutes "created only upon first positive credit". -/
theorem C7_counterexample :
    ("X" ∉ ([] : List AccountValue).map AccountValue.name) ∧
    ((-5 : Int) < 0) ∧
    "X" ∈ (getSnapshot (ApplyUpdates (NewInMemoryAccountState [])
      [⟨"X", -5⟩])).map AccountValue.name := by
  decide

/-- Claim C7 (amended): an account appears in the snapshot exactly when it is
in the initial state or is named by at least one applied delta — creation
happens on first touch of any sign (positive, zero or negative), not only on
first positive credit. -/
theorem C7_amended_created_on_any_touch (init : List AccountValue)
    (batches : List (List AccountUpdate)) (n : String) :
    n ∈ (getSnapshot (runBatches init batches)).map AccountValue.name ↔
      n ∈ init.map AccountValue.name ∨ ∃ b ∈ batches, ∃ u ∈ b, u.name = n := by
  rw [getSnapshot_names, mem_stateNames_runBatches]

/-- Claim C8 counterexample: applying the positive delta `+1` to an account
holding the maximal `uint` balance `2^64 - 1` yields balance `0`: the Go
`uint` addition silently wraps.  `0` is not the mathematical sum `2^64`, and
not the saturated maximum `2^64 - 1`, and `applyUpdates` cannot report an
error — refuting "saturating or overflow-erroring, never silently wrapped". -/
theorem C8_counterexample :
    (GetAccount (ApplyUpdates (NewInMemoryAccountState [⟨"X", 2 ^ 64 - 1⟩])
      [⟨"X", 1⟩]) "X").balance = 0 ∧
    (2 ^ 64 - 1 + 1 : Nat) ≠ 0 ∧ (2 ^ 64 - 1 : Nat) ≠ 0 := by
  refine ⟨?_, by decide, by decide⟩
  simp only [GetAccount, ApplyUpdates, List.foldl_cons, List.foldl_nil,
    applyUpdate, mapGet_mapSet_self]
  decide

/-- Claim C8 (amended): for every ledger state and every non-negative delta
in Go's 64-bit `int` range, the resulting balance is `(b + d) mod 2^64` —
Go `uint` addition, which silently wraps on overflow; there is no saturation
and no error path. -/
theorem C8_amended_wrapping_add (st : InMemoryAccountState) (u : AccountUpdate)
    (hpos : 0 ≤ u.balanceChange) (h63 : u.balanceChange < 2 ^ 63) :
    GetAccount (ApplyUpdates st [u]) u.name =
      ⟨u.name, ((GetAccount st u.name).balance + u.balanceChange.toNat) % U64⟩ := by
  have hnb : newBalance st.accounts u =
      (mapGet st.accounts u.name + u.balanceChange.toNat) % U64 := by
    simp only [newBalance]
    rw [if_pos hpos]
  simp only [GetAccount, ApplyUpdates, List.foldl_cons, List.foldl_nil,
    applyUpdate, hnb, mapGet_mapSet_self]

theorem C8_amended_wrapping_add_witness :
    ((0 : Int) ≤ 7) ∧ ((7 : Int) < 2 ^ 63) ∧
    GetAccount (ApplyUpdates (NewInMemoryAccountState [⟨"X", 10⟩])
        [⟨"X", 7⟩]) "X" =
      ⟨"X", ((GetAccount (NewInMemoryAccountState [⟨"X", 10⟩]) "X").balance +
        (Int.toNat 7)) % U64⟩ :=
  ⟨by decide, by decide,
    C8_amended_wrapping_add (NewInMemoryAccountState [⟨"X", 10⟩]) ⟨"X", 7⟩
      (by decide) (by decide)⟩

end TxExec
